import Mathlib

/-!
Shallow embedding of the Cloudnote core: the path-addressed hierarchical
note store (`getNoteByPath`, `setNoteByPath`, `handleNewNote`,
`handleAddSubNote`, `handleToggleCollapse`), the search index
(`gatherAllNotes` and the search effect), and the tab multiplexer
(`pathsEqual`, `openNoteTab`, `handleTabClose`).

The TypeScript `Note` interface has optional `subNotes` and `isCollapsed`
fields, modelled as `Option`.  JavaScript arrays are modelled as `List`,
string operations (`trim`, `toLowerCase`, `includes`) as explicit
functions on `String`.
-/

/-- The `Note` interface: `{ title: string; content: string;
    subNotes?: Note[]; isCollapsed?: boolean }`. -/
inductive Note where
  | mk (title : String) (content : String)
       (subNotes : Option (List Note)) (isCollapsed : Option Bool)

mutual

/-- Structural equality of notes (field-wise, recursing into `subNotes`). -/
def Note.beq : Note → Note → Bool
  | .mk t₁ c₁ s₁ i₁, .mk t₂ c₂ s₂ i₂ =>
    t₁ == t₂ && (c₁ == c₂ && (i₁ == i₂ &&
      match s₁, s₂ with
      | none, none => true
      | some l₁, some l₂ => Note.beqList l₁ l₂
      | _, _ => false))

/-- Structural equality of lists of notes. -/
def Note.beqList : List Note → List Note → Bool
  | [], [] => true
  | n₁ :: r₁, n₂ :: r₂ => Note.beq n₁ n₂ && Note.beqList r₁ r₂
  | _, _ => false

end

theorem Note.beq_beqList_iff (k : Nat) :
    (∀ a b : Note, sizeOf a ≤ k → (Note.beq a b = true ↔ a = b)) ∧
    (∀ l₁ l₂ : List Note, sizeOf l₁ ≤ k → (Note.beqList l₁ l₂ = true ↔ l₁ = l₂)) := by
  induction k with
  | zero =>
    constructor
    · intro a _ h; exfalso; cases a; simp at h
    · intro l₁ _ h; exfalso; cases l₁ <;> simp at h
  | succ k ih =>
    constructor
    · rintro ⟨t₁, c₁, s₁, i₁⟩ ⟨t₂, c₂, s₂, i₂⟩ h
      match s₁, s₂ with
      | none, none => simp [Note.beq]
      | none, some l₂ => simp [Note.beq]
      | some l₁, none => simp [Note.beq]
      | some l₁, some l₂ =>
        have hl : sizeOf l₁ ≤ k := by simp at h; omega
        simp only [Note.beq, Bool.and_eq_true, beq_iff_eq, Note.mk.injEq,
          Option.some.injEq, ih.2 l₁ l₂ hl]
        tauto
    · intro l₁ l₂ h
      match l₁, l₂ with
      | [], [] => simp [Note.beqList]
      | [], _ :: _ => simp [Note.beqList]
      | _ :: _, [] => simp [Note.beqList]
      | n₁ :: r₁, n₂ :: r₂ =>
        have hn : sizeOf n₁ ≤ k := by simp at h; omega
        have hr : sizeOf r₁ ≤ k := by simp at h; omega
        simp only [Note.beqList, Bool.and_eq_true, List.cons.injEq]
        exact and_congr (ih.1 n₁ n₂ hn) (ih.2 r₁ r₂ hr)

theorem Note.beq_iff (a b : Note) : Note.beq a b = true ↔ a = b :=
  (Note.beq_beqList_iff (sizeOf a)).1 a b le_rfl

instance : DecidableEq Note := fun a b =>
  decidable_of_iff (Note.beq a b = true) (Note.beq_iff a b)

def Note.title : Note → String
  | .mk t _ _ _ => t

def Note.content : Note → String
  | .mk _ c _ _ => c

def Note.subNotes : Note → Option (List Note)
  | .mk _ _ s _ => s

def Note.isCollapsed : Note → Option Bool
  | .mk _ _ _ i => i

/-- `getNoteByPath` from the source, with the ambient `notes` state made an
explicit first argument.  The source walks the path level by level:
out-of-range index gives `null`, a non-final step into a note without
`subNotes` gives `null`, the final step returns the note. -/
def getNoteByPath (level : List Note) : List Nat → Option Note
  | [] => none
  | idx :: rest =>
    match level[idx]? with
    | none => none
    | some cur =>
      match rest with
      | [] => some cur
      | _ :: _ =>
        match cur.subNotes with
        | none => none
        | some children => getNoteByPath children rest

/-- Outcome of `setNoteByPath`.  The source performs plain JavaScript array
writes with no range checks, so besides the ordinary result two further
outcomes are possible:
* `crash` — a non-final path element is out of range, so the walk reads
  `.subNotes` of `undefined` and throws a `TypeError`; `setNotes` is never
  reached and the state is unchanged;
* `sparse` — the final path element is strictly beyond the end of its
  level, so the JavaScript assignment creates a sparse array with holes,
  which has no counterpart as a `List Note`. -/
inductive SetResult where
  | ok (forest : List Note)
  | crash
  | sparse
deriving DecidableEq

/-- The level-by-level walk of `setNoteByPath` on the cloned forest.  At a
non-final element the source reads `level[idx]`, installs `[]` for a
missing `subNotes`, and descends; at the final element it assigns
`level[idx] = updated` (an assignment at `idx = level.length` appends,
one beyond that creates a sparse array). -/
def setNoteByPathAux (level : List Note) (updated : Note) : List Nat → SetResult
  | [] => .ok level
  | [idx] =>
    if idx < level.length then .ok (level.set idx updated)
    else if idx = level.length then .ok (level ++ [updated])
    else .sparse
  | idx :: rest =>
    match level[idx]? with
    | none => .crash
    | some cur =>
      match setNoteByPathAux (cur.subNotes.getD []) updated rest with
      | .ok c => .ok (level.set idx (Note.mk cur.title cur.content (some c) cur.isCollapsed))
      | r => r

/-- `setNoteByPath` from the source: an empty path returns without calling
`setNotes` (the forest is unchanged), otherwise the clone is updated along
the path and committed. -/
def setNoteByPath (notes : List Note) (path : List Nat) (updated : Note) : SetResult :=
  if path.isEmpty then .ok notes else setNoteByPathAux notes updated path

/-- The note literal appended by `handleNewNote`. -/
def defaultRootNote : Note := Note.mk "Untitled Note" "" (some []) (some false)

/-- The note literal appended by `handleAddSubNote`. -/
def defaultSubNote : Note := Note.mk "Untitled SubNote" "" (some []) (some false)

/-- `handleNewNote` from the source: appends the default root note and
selects path `[notes.length]`.  Returns the new forest and that path. -/
def handleNewNote (notes : List Note) : List Note × List Nat :=
  (notes ++ [defaultRootNote], [notes.length])

/-- Outcome of `handleAddSubNote`.  `notFound` is the silent early return
when the parent path does not resolve, `depthExceeded` the alert when
`path.length >= 4`; `crash`/`sparse` mirror the corresponding outcomes of
`setNoteByPath` (both are proved unreachable below). -/
inductive AddResult where
  | ok (forest : List Note)
  | notFound
  | depthExceeded
  | crash
  | sparse
deriving DecidableEq

/-- `handleAddSubNote` from the source.  Note the order of the two guards:
resolution is checked before the depth limit. -/
def handleAddSubNote (notes : List Note) (path : List Nat) : AddResult :=
  match getNoteByPath notes path with
  | none => .notFound
  | some parent =>
    if path.length ≥ 4 then .depthExceeded
    else
      let newSubNotes := parent.subNotes.getD [] ++ [defaultSubNote]
      let updated := Note.mk parent.title parent.content (some newSubNotes) parent.isCollapsed
      match setNoteByPath notes path updated with
      | .ok f => .ok f
      | .crash => .crash
      | .sparse => .sparse

/-- `handleToggleCollapse` from the source: resolve, flip `isCollapsed`
(JavaScript `!` maps a missing flag to `true`), write back.  On a
non-resolving path the forest is unchanged.  The `.crash` case leaves the
state unchanged exactly as the thrown `TypeError` would; it and `.sparse`
are unreachable here because the path was just resolved. -/
def handleToggleCollapse (notes : List Note) (path : List Nat) : List Note :=
  match getNoteByPath notes path with
  | none => notes
  | some note =>
    let updated := Note.mk note.title note.content note.subNotes
        (some (!(note.isCollapsed.getD false)))
    match setNoteByPath notes path updated with
    | .ok f => f
    | _ => notes

example : getNoteByPath [Note.mk "a" "" (some []) none] [0] =
    some (Note.mk "a" "" (some []) none) := by decide

example : setNoteByPath [Note.mk "a" "" (some []) none] [1] defaultSubNote =
    .ok [Note.mk "a" "" (some []) none, defaultSubNote] := by decide

example : handleAddSubNote [] [0, 0, 0, 0] = .notFound := by decide

example :
    handleAddSubNote [Note.mk "a" "" none none] [0] =
      .ok [Note.mk "a" "" (some [defaultSubNote]) none] := by decide

mutual

/-- One step of the `dfs` inside `gatherAllNotes`: push the `(path, note)`
entry, then recurse into `subNotes` when present and non-empty. -/
def gatherNote : List Nat → Note → List (List Nat × Note)
  | p, .mk t c s i =>
    (p, .mk t c s i) ::
      (match s with
       | some cs => if cs.length > 0 then gatherLevel p 0 cs else []
       | none => [])
  termination_by _ n => sizeOf n

/-- The `forEach` of the `dfs`: visit the notes of one level left to right,
`idx` being the index of the first of them within the level. -/
def gatherLevel (p : List Nat) (idx : Nat) : List Note → List (List Nat × Note)
  | [] => []
  | n :: rest => gatherNote (p ++ [idx]) n ++ gatherLevel p (idx + 1) rest
  termination_by l => sizeOf l

end

/-- `gatherAllNotes` from the source: depth-first pre-order traversal of
the whole forest, one entry per note. -/
def gatherAllNotes (rootNotes : List Note) : List (List Nat × Note) :=
  gatherLevel [] 0 rootNotes

/-- The whitespace class trimmed by JavaScript `String.prototype.trim`
(restricted to the characters that can actually occur here). -/
def isJsWhitespace (c : Char) : Bool :=
  c = ' ' || c = '\t' || c = '\n' || c = '\r' ||
    c = Char.ofNat 11 || c = Char.ofNat 12 || c = Char.ofNat 160

/-- JavaScript `s.trim()`: drop leading and trailing whitespace. -/
def jsTrim (s : String) : String :=
  String.mk (((s.data.dropWhile isJsWhitespace).reverse.dropWhile isJsWhitespace).reverse)

/-- JavaScript `s.toLowerCase()` (character-wise lowering; exact on the
ASCII data of this application). -/
def jsToLower (s : String) : String :=
  String.mk (s.data.map Char.toLower)

/-- JavaScript `s.includes(sub)`: `sub` occurs contiguously in `s`. -/
def jsIncludes (s sub : String) : Bool :=
  decide (sub.data <:+: s.data)

/-- The filter predicate of the search effect:
`(note.title ?? "").toLowerCase().includes(lowerQ) ||
 (note.content ?? "").toLowerCase().includes(lowerQ)` (the `?? ""` is the
identity here since both fields are non-nullable strings). -/
def searchMatches (lowerQ : String) (n : Note) : Bool :=
  jsIncludes (jsToLower n.title) lowerQ || jsIncludes (jsToLower n.content) lowerQ

/-- The search effect from the source as a pure function of the forest and
the query: an all-whitespace query yields no results, otherwise the
gathered entries are filtered by the case-folded substring test. -/
def computeSearchResults (notes : List Note) (searchQuery : String) :
    List (List Nat × Note) :=
  if (jsTrim searchQuery).isEmpty then []
  else
    (gatherAllNotes notes).filter fun e => searchMatches (jsToLower searchQuery) e.2

/-- `pathsEqual` from the source: equal length and element-wise equal. -/
def pathsEqual (a b : List Nat) : Bool :=
  a.length == b.length && (List.zip a b).all fun e => e.1 == e.2

/-- The tab state of the source component: `openTabs` (each tab is a note
path), `activeTabIndex` (−1 encodes "none"), and `selectedPath`. -/
structure TabState where
  openTabs : List (List Nat)
  activeTabIndex : Int
  selectedPath : List Nat
deriving DecidableEq

/-- `openNoteTab` from the source: focus the first tab whose path equals
`path`, or append a new tab and make it active. -/
def openNoteTab (s : TabState) (path : List Nat) : TabState :=
  match s.openTabs.findIdx? (fun t => pathsEqual t path) with
  | some i => { s with activeTabIndex := i, selectedPath := path }
  | none =>
    { s with openTabs := s.openTabs ++ [path],
             activeTabIndex := s.openTabs.length,
             selectedPath := path }

/-- `handleTabClose` from the source.  `splice(index, 1)` is `eraseIdx`;
all the branch conditions and the read `openTabs[openTabs.length - 2]` use
the pre-removal `openTabs` and `activeTabIndex`, exactly as the source
closure does. -/
def handleTabClose (s : TabState) (index : Nat) : TabState :=
  let tabs' := s.openTabs.eraseIdx index
  let n : Int := s.openTabs.length
  if (index : Int) = s.activeTabIndex then
    let newIndex : Int := if (index : Int) - 1 < 0 then 0 else (index : Int) - 1
    if newIndex ≥ n - 1 then
      if n - 1 ≤ 0 then
        { openTabs := tabs', activeTabIndex := -1, selectedPath := [] }
      else
        { openTabs := tabs', activeTabIndex := n - 2,
          selectedPath := (s.openTabs[(n - 2).toNat]?).getD s.selectedPath }
    else
      { s with openTabs := tabs', activeTabIndex := newIndex }
  else if (index : Int) < s.activeTabIndex then
    { s with openTabs := tabs', activeTabIndex := s.activeTabIndex - 1 }
  else
    { s with openTabs := tabs' }

/-- A path is in range for a forest in the sense of the `setNoteByPath`
walk: every non-final element indexes an existing note of its level (the
next level being that note's `subNotes`, or the empty sequence the walk
would install when `subNotes` is missing), and the final element is a
valid index of its level. -/
def pathInRange (level : List Note) : List Nat → Bool
  | [] => true
  | [idx] => idx < level.length
  | idx :: rest =>
    match level[idx]? with
    | none => false
    | some cur => pathInRange (cur.subNotes.getD []) rest

/-- The children list is structurally smaller than its note (termination
measure for recursion through `subNotes`). -/
theorem Note.sizeOf_subNotes_getD (n : Note) : sizeOf (n.subNotes.getD []) < sizeOf n := by
  obtain ⟨t, c, s, i⟩ := n
  cases s <;> simp [Note.subNotes] <;> omega

mutual

/-- Every note of this subtree sits within `k` further nesting levels
(`k = 0` admits no note at all). -/
def noteDepthLE : Note → Nat → Bool
  | _, 0 => false
  | n, k + 1 => forestDepthLE (n.subNotes.getD []) k
  termination_by n _ => sizeOf n
  decreasing_by simp_wf; exact Note.sizeOf_subNotes_getD n

/-- Every note of this forest sits within `k` nesting levels. -/
def forestDepthLE : List Note → Nat → Bool
  | [], _ => true
  | n :: rest, k => noteDepthLE n k && forestDepthLE rest k
  termination_by l _ => sizeOf l

end

mutual

/-- Number of notes in the subtree rooted at a note (itself included). -/
def countNote (n : Note) : Nat :=
  1 + countLevel (n.subNotes.getD [])
  termination_by sizeOf n
  decreasing_by simp_wf; exact Note.sizeOf_subNotes_getD n

/-- Number of notes in a forest, descendants included. -/
def countLevel : List Note → Nat
  | [] => 0
  | n :: rest => countNote n + countLevel rest
  termination_by l => sizeOf l

end

/-- A create call of the core: `createRoot` is `handleNewNote`,
`createChild parentPath` is `handleAddSubNote`. -/
inductive CreateOp where
  | newNote
  | addSub (parentPath : List Nat)

/-- Number of children the note at `p` currently has (0 when `p` does not
resolve; used only to name the created child's position). -/
def childCount (f : List Note) (p : List Nat) : Nat :=
  ((getNoteByPath f p).map fun n => (n.subNotes.getD []).length).getD 0

/-- One create call: the resulting forest together with the created
`(path, note)` entries (one on success, none on failure).  The source's
`handleAddSubNote` returns no path, so the child's path is the
`parentPath + [newIndex]` of the specification (§4.2); `handleNewNote`
selects `[notes.length]` itself. -/
def stepCreate (f : List Note) : CreateOp → List Note × List (List Nat × Note)
  | .newNote => ((handleNewNote f).1, [((handleNewNote f).2, defaultRootNote)])
  | .addSub p =>
    match handleAddSubNote f p with
    | .ok f' => (f', [(p ++ [childCount f p], defaultSubNote)])
    | _ => (f, [])

/-- Run a sequence of create calls, collecting every created
`(path, note)` entry. -/
def runCreate (f : List Note) : List CreateOp → List Note × List (List Nat × Note)
  | [] => (f, [])
  | op :: ops =>
    let step := stepCreate f op
    let rest := runCreate step.1 ops
    (rest.1, step.2 ++ rest.2)

/-- The data of a search entry that the search filter can observe: the
path and the note's `title` and `content`. -/
def searchProj (e : List Nat × Note) : List Nat × String × String :=
  (e.1, e.2.title, e.2.content)

/-! ## Helper lemmas -/

/-- `pathsEqual` decides list equality. -/
theorem pathsEqual_iff (a b : List Nat) : pathsEqual a b = true ↔ a = b := by
  induction a generalizing b with
  | nil => cases b <;> simp [pathsEqual]
  | cons x xs ih =>
    cases b with
    | nil => simp [pathsEqual]
    | cons y ys =>
      have h := ih ys
      simp only [pathsEqual, List.length_cons, List.zip_cons_cons, List.all_cons,
        List.all_eq_true, Bool.and_eq_true, beq_iff_eq, List.cons.injEq,
        Nat.add_right_cancel_iff] at h ⊢
      tauto

/-! ## C10: empty-path edge case -/

/-- C10: for every forest, `getNoteByPath` on the empty path returns
`none` (the source's `null`), and `setNoteByPath` on the empty path is a
no-op that leaves the forest unchanged. -/
theorem emptyPath_resolve_none_and_set_noop (f : List Note) (u : Note) :
    getNoteByPath f [] = none ∧ setNoteByPath f [] u = .ok f :=
  ⟨rfl, rfl⟩

/-! ## C7: tab focus idempotence -/

/-- C7: `openNoteTab` finds a tab by element-wise path equality and either
focuses it or appends a new active tab; calling it twice in a row is the
same as calling it once, so the second call neither changes `activeIndex`
nor creates a duplicate tab. -/
theorem openNoteTab_idempotent (s : TabState) (p : List Nat) :
    openNoteTab (openNoteTab s p) p = openNoteTab s p := by
  have hpe : ∀ t : List Nat, pathsEqual t p = (t == p) := by
    intro t
    by_cases hEq : t = p
    · subst hEq
      simp [(pathsEqual_iff t t).2 rfl]
    · have h1 : pathsEqual t p = false := by
        rcases Bool.eq_false_or_eq_true (pathsEqual t p) with h | h
        · exact absurd ((pathsEqual_iff t p).1 h) hEq
        · exact h
      rw [h1]
      symm
      rw [beq_eq_false_iff_ne]
      exact hEq
  cases hf : s.openTabs.findIdx? (fun t => pathsEqual t p) with
  | some i => simp [openNoteTab, hf]
  | none =>
    have hfind :
        (s.openTabs ++ [p]).findIdx? (fun t => pathsEqual t p) =
          some s.openTabs.length := by
      rw [List.findIdx?_append, hf]
      simp [hpe]
    simp [openNoteTab, hf, hfind]

/-! ## C4: tab close reselection -/

/-- C4: `handleTabClose` obeys the reselection policy.  The closed tab is
removed; when it was the active one, the new active index is `index - 1`
(previous neighbor), or `0` if the first tab was closed and tabs remain,
or `-1` ("none") with the selection cleared when no tab remains; when a
tab strictly left of the active one is closed, the active index shifts
down by one; when a tab strictly right of it is closed, it is unchanged. -/
theorem handleTabClose_reselection (s : TabState) (index : Nat)
    (h : index < s.openTabs.length) :
    (handleTabClose s index).openTabs = s.openTabs.eraseIdx index ∧
    ((index : Int) = s.activeTabIndex →
      ((s.openTabs.length = 1 →
          (handleTabClose s index).activeTabIndex = -1 ∧
          (handleTabClose s index).selectedPath = []) ∧
       (index = 0 → 2 ≤ s.openTabs.length →
          (handleTabClose s index).activeTabIndex = 0) ∧
       (1 ≤ index →
          (handleTabClose s index).activeTabIndex = (index : Int) - 1))) ∧
    ((index : Int) < s.activeTabIndex →
      (handleTabClose s index).activeTabIndex = s.activeTabIndex - 1) ∧
    (s.activeTabIndex < (index : Int) →
      (handleTabClose s index).activeTabIndex = s.activeTabIndex) := by
  unfold handleTabClose
  dsimp only
  split_ifs with h1 h2 h3 h4 h5 h6 <;>
    refine ⟨rfl, fun ha => ⟨fun hlen => ?_, fun hz hlen => ?_, fun hge => ?_⟩,
      fun hlt => ?_, fun hgt => ?_⟩ <;>
    dsimp only <;> first | omega | (exact ⟨rfl, rfl⟩)

/-- Witness for C4: from tabs `[A, B, C]` with `B` active, `close(1)`
yields `[A, C]` with `A` active; from tabs `[A]` with `A` active,
`close(0)` yields no tabs, `activeIndex = -1`. -/
theorem handleTabClose_reselection_witness :
    (handleTabClose ⟨[[0], [1], [2]], 1, [1]⟩ 1).openTabs = [[0], [2]] ∧
    (handleTabClose ⟨[[0], [1], [2]], 1, [1]⟩ 1).activeTabIndex = 0 ∧
    (handleTabClose ⟨[[0]], 0, [0]⟩ 0).openTabs = [] ∧
    (handleTabClose ⟨[[0]], 0, [0]⟩ 0).activeTabIndex = -1 := by
  obtain ⟨ht₁, hsel₁, -, -⟩ :=
    handleTabClose_reselection ⟨[[0], [1], [2]], 1, [1]⟩ 1 (by decide)
  obtain ⟨ht₂, hsel₂, -, -⟩ :=
    handleTabClose_reselection ⟨[[0]], 0, [0]⟩ 0 (by decide)
  refine ⟨ht₁.trans (by decide), ?_, ht₂.trans (by decide), ?_⟩
  · exact ((hsel₁ rfl).2.2 le_rfl).trans (by decide)
  · exact ((hsel₂ rfl).1 rfl).1

/-- Resolving a one-element path is just the array read. -/
theorem getNoteByPath_singleton (level : List Note) (idx : Nat) :
    getNoteByPath level [idx] = level[idx]? := by
  cases h : level[idx]? <;> simp [getNoteByPath, h]

/-- Nothing resolves in an empty forest. -/
theorem getNoteByPath_nil_forest (p : List Nat) :
    getNoteByPath ([] : List Note) p = none := by
  cases p <;> simp [getNoteByPath]

/-- Unfolding of `getNoteByPath` at a path of length at least two. -/
theorem getNoteByPath_cons_cons (level : List Note) (idx j : Nat) (rt : List Nat) :
    getNoteByPath level (idx :: j :: rt) =
      match level[idx]? with
      | none => none
      | some cur =>
        match cur.subNotes with
        | none => none
        | some cs => getNoteByPath cs (j :: rt) := rfl

/-- Resolution is preserved when a level is extended on the right. -/
theorem getNoteByPath_prefix {cs us : List Note} (hpre : cs <+: us)
    {r : List Nat} {m : Note} (h : getNoteByPath cs r = some m) :
    getNoteByPath us r = some m := by
  obtain ⟨ds, rfl⟩ := hpre
  cases r with
  | nil => simp [getNoteByPath] at h
  | cons j rt =>
    simp only [getNoteByPath] at h ⊢
    cases hj : cs[j]? with
    | none => rw [hj] at h; simp at h
    | some cur =>
      have hlt : j < cs.length := (List.getElem?_eq_some.1 hj).1
      rw [List.getElem?_append_left hlt, hj]
      rw [hj] at h
      exact h

/-- A path that resolves is in range for the `setNoteByPath` walk. -/
theorem pathInRange_of_get {p : List Nat} :
    ∀ {level : List Note} {n : Note}, getNoteByPath level p = some n →
      pathInRange level p = true := by
  induction p with
  | nil => intro level n h; simp [getNoteByPath] at h
  | cons idx rest ih =>
    intro level n h
    cases hidx : level[idx]? with
    | none => simp only [getNoteByPath, hidx] at h; exact Option.noConfusion h
    | some cur =>
      cases rest with
      | nil => simp [pathInRange, (List.getElem?_eq_some.1 hidx).1]
      | cons j rt =>
        simp only [getNoteByPath, hidx] at h
        cases hsub : cur.subNotes with
        | none => rw [hsub] at h; simp at h
        | some cs =>
          rw [hsub] at h
          simp only [pathInRange, hidx, hsub, Option.getD_some]
          exact ih h

/-- On an in-range non-empty path the `setNoteByPath` walk succeeds and
the written note is resolvable at that path afterwards. -/
theorem setNoteByPathAux_inRange (u : Note) {p : List Nat} (hne : p ≠ []) :
    ∀ {level : List Note}, pathInRange level p = true →
      ∃ f', setNoteByPathAux level u p = .ok f' ∧ getNoteByPath f' p = some u := by
  induction p with
  | nil => exact absurd rfl hne
  | cons idx rest ih =>
    intro level hir
    cases rest with
    | nil =>
      simp only [pathInRange, decide_eq_true_eq] at hir
      refine ⟨level.set idx u, ?_, ?_⟩
      · simp [setNoteByPathAux, hir]
      · rw [getNoteByPath_singleton, List.getElem?_set_eq hir]
    | cons j rt =>
      simp only [pathInRange] at hir
      cases hidx : level[idx]? with
      | none => rw [hidx] at hir; simp at hir
      | some cur =>
        rw [hidx] at hir
        obtain ⟨c, hc, hgetc⟩ := ih (by simp) hir
        have hlt : idx < level.length := (List.getElem?_eq_some.1 hidx).1
        refine ⟨level.set idx (Note.mk cur.title cur.content (some c) cur.isCollapsed), ?_, ?_⟩
        · simp only [setNoteByPathAux, hidx, hc]
        · have h1 : (level.set idx (Note.mk cur.title cur.content (some c) cur.isCollapsed))[idx]? =
              some (Note.mk cur.title cur.content (some c) cur.isCollapsed) :=
            List.getElem?_set_eq hlt
          simp only [getNoteByPath, h1, Note.subNotes]
          exact hgetc

/-- Resolution of `q ++ [j]` reads the `j`-th child of the note at `q`. -/
theorem getNoteByPath_snoc {q : List Nat} (hne : q ≠ []) (j : Nat) :
    ∀ level : List Note,
      getNoteByPath level (q ++ [j]) =
        (getNoteByPath level q).bind fun n => (n.subNotes.getD [])[j]? := by
  induction q with
  | nil => exact absurd rfl hne
  | cons idx rest ih =>
    intro level
    cases rest with
    | nil =>
      show getNoteByPath level [idx, j] = _
      rw [getNoteByPath_cons_cons, getNoteByPath_singleton]
      cases hidx : level[idx]? with
      | none => simp
      | some cur =>
        cases hsub : cur.subNotes with
        | none => simp [hsub]
        | some cs => simp [hsub, getNoteByPath_singleton]
    | cons r0 rrt =>
      show getNoteByPath level (idx :: ((r0 :: rrt) ++ [j])) = _
      rw [List.cons_append, getNoteByPath_cons_cons, getNoteByPath_cons_cons]
      cases hidx : level[idx]? with
      | none => simp
      | some cur =>
        cases hsub : cur.subNotes with
        | none => simp [hsub]
        | some cs =>
          have hrec := ih (by simp) cs
          rw [List.cons_append] at hrec
          simp [hsub, hrec]

/-- Unfolding of the `setNoteByPath` walk at a path of length one. -/
theorem setNoteByPathAux_singleton (level : List Note) (u : Note) (idx : Nat) :
    setNoteByPathAux level u [idx] =
      if idx < level.length then .ok (level.set idx u)
      else if idx = level.length then .ok (level ++ [u])
      else .sparse := rfl

/-- Unfolding of the `setNoteByPath` walk at a path of length at least two. -/
theorem setNoteByPathAux_cons_cons (level : List Note) (u : Note) (idx j : Nat)
    (rt : List Nat) :
    setNoteByPathAux level u (idx :: j :: rt) =
      match level[idx]? with
      | none => .crash
      | some cur =>
        match setNoteByPathAux (cur.subNotes.getD []) u (j :: rt) with
        | .ok c => .ok (level.set idx (Note.mk cur.title cur.content (some c) cur.isCollapsed))
        | r => r := rfl

/-- Frame property of the `setNoteByPath` walk: writing `u` at a path `q`
that resolved to `parent`, with `u`'s children extending `parent`'s,
keeps every previously resolvable path resolvable — to `u` at `q` itself,
to a note with the same `title`, `content` and `isCollapsed` on proper
prefixes of `q`, and to the very same note everywhere else. -/
theorem getNoteByPath_setAux_preserved {q : List Nat} :
    ∀ {level f' : List Note} {parent u : Note},
      getNoteByPath level q = some parent →
      setNoteByPathAux level u q = .ok f' →
      parent.subNotes.getD [] <+: u.subNotes.getD [] →
      ∀ r m, getNoteByPath level r = some m →
        ∃ m', getNoteByPath f' r = some m' ∧
          (r = q → m' = u) ∧
          (r ≠ q →
            m'.title = m.title ∧ m'.content = m.content ∧
            m'.isCollapsed = m.isCollapsed ∧ (¬ r <+: q → m' = m)) := by
  induction q with
  | nil =>
    intro level f' parent u hq _ _
    simp [getNoteByPath] at hq
  | cons qi qrest ih =>
    intro level f' parent u hq hset hpre r m hr
    cases qrest with
    | nil =>
      rw [getNoteByPath_singleton] at hq
      have hlt : qi < level.length := (List.getElem?_eq_some.1 hq).1
      rw [setNoteByPathAux_singleton, if_pos hlt] at hset
      injection hset with hf'
      subst hf'
      cases r with
      | nil => simp [getNoteByPath] at hr
      | cons rj rrest =>
        by_cases hji : rj = qi
        · subst hji
          cases rrest with
          | nil =>
            rw [getNoteByPath_singleton, hq] at hr
            injection hr with hm
            subst hm
            refine ⟨u, ?_, fun _ => rfl, fun hne => absurd rfl hne⟩
            rw [getNoteByPath_singleton, List.getElem?_set_eq hlt]
          | cons r1 rrt =>
            simp only [getNoteByPath_cons_cons, hq] at hr
            cases hsub : parent.subNotes with
            | none => simp only [hsub] at hr; exact Option.noConfusion hr
            | some cs =>
              simp only [hsub] at hr
              have hcs : cs <+: u.subNotes.getD [] := by
                rw [hsub] at hpre; simpa using hpre
              cases hus : u.subNotes with
              | none =>
                exfalso
                rw [hus] at hcs
                simp only [Option.getD_none] at hcs
                have hcs0 : cs = [] := List.prefix_nil.1 hcs
                subst hcs0
                rw [getNoteByPath_nil_forest] at hr
                exact Option.noConfusion hr
              | some us =>
                have hpre' : cs <+: us := by rw [hus] at hcs; simpa using hcs
                have hres : getNoteByPath us (r1 :: rrt) = some m :=
                  getNoteByPath_prefix hpre' hr
                refine ⟨m, ?_, ?_, fun _ => ⟨rfl, rfl, rfl, fun _ => rfl⟩⟩
                · simp only [getNoteByPath_cons_cons, List.getElem?_set_eq hlt, hus]
                  exact hres
                · intro hrq
                  exact absurd (List.cons.inj hrq).2 (by simp)
        · have hrd : getNoteByPath (level.set qi u) (rj :: rrest) = some m := by
            cases rrest with
            | nil =>
              rw [getNoteByPath_singleton] at hr ⊢
              rw [List.getElem?_set_ne (fun h => hji h.symm)]
              exact hr
            | cons r1 rrt =>
              rw [getNoteByPath_cons_cons] at hr ⊢
              rw [List.getElem?_set_ne (fun h => hji h.symm)]
              exact hr
          refine ⟨m, hrd, ?_, fun _ => ⟨rfl, rfl, rfl, fun _ => rfl⟩⟩
          intro hrq
          exact absurd (List.cons.inj hrq).1 hji
    | cons q1 qrt =>
      rw [getNoteByPath_cons_cons] at hq
      cases hqi : level[qi]? with
      | none => simp only [hqi] at hq; exact Option.noConfusion hq
      | some cur =>
        simp only [hqi] at hq
        cases hcsub : cur.subNotes with
        | none => simp only [hcsub] at hq; exact Option.noConfusion hq
        | some cs =>
          simp only [hcsub] at hq
          simp only [setNoteByPathAux_cons_cons, hqi, hcsub, Option.getD_some] at hset
          cases hsetc : setNoteByPathAux cs u (q1 :: qrt) with
          | crash => simp only [hsetc] at hset; exact SetResult.noConfusion hset
          | sparse => simp only [hsetc] at hset; exact SetResult.noConfusion hset
          | ok c =>
            simp only [hsetc] at hset
            injection hset with hf'
            subst hf'
            have hlt : qi < level.length := (List.getElem?_eq_some.1 hqi).1
            cases r with
            | nil => simp [getNoteByPath] at hr
            | cons rj rrest =>
              by_cases hji : rj = qi
              · subst hji
                cases rrest with
                | nil =>
                  rw [getNoteByPath_singleton, hqi] at hr
                  injection hr with hm
                  subst hm
                  refine ⟨Note.mk cur.title cur.content (some c) cur.isCollapsed, ?_, ?_, ?_⟩
                  · rw [getNoteByPath_singleton, List.getElem?_set_eq hlt]
                  · intro hrq
                    exact absurd (List.cons.inj hrq).2 (by simp)
                  · intro _
                    refine ⟨rfl, rfl, rfl, fun hnpre => ?_⟩
                    exact absurd ⟨q1 :: qrt, rfl⟩ hnpre
                | cons r1 rrt =>
                  simp only [getNoteByPath_cons_cons, hqi, hcsub] at hr
                  obtain ⟨m', hm', hmq, hmneq⟩ := ih hq hsetc hpre (r1 :: rrt) m hr
                  refine ⟨m', ?_, ?_, ?_⟩
                  · simp only [getNoteByPath_cons_cons, List.getElem?_set_eq hlt,
                      Note.subNotes]
                    exact hm'
                  · intro hrq
                    exact hmq (List.cons.inj hrq).2
                  · intro hrq
                    have hinner : (r1 :: rrt) ≠ (q1 :: qrt) := fun h => hrq (by rw [h])
                    obtain ⟨ht, hc, hi, hrest⟩ := hmneq hinner
                    refine ⟨ht, hc, hi, fun hnpre => ?_⟩
                    refine hrest fun hp => hnpre ?_
                    exact List.cons_prefix_cons.2 ⟨rfl, hp⟩
              · have hrd : getNoteByPath
                    (level.set qi (Note.mk cur.title cur.content (some c) cur.isCollapsed))
                    (rj :: rrest) = some m := by
                  cases rrest with
                  | nil =>
                    rw [getNoteByPath_singleton] at hr ⊢
                    rw [List.getElem?_set_ne (fun h => hji h.symm)]
                    exact hr
                  | cons r1 rrt =>
                    rw [getNoteByPath_cons_cons] at hr ⊢
                    rw [List.getElem?_set_ne (fun h => hji h.symm)]
                    exact hr
                refine ⟨m, hrd, ?_, fun _ => ⟨rfl, rfl, rfl, fun _ => rfl⟩⟩
                intro hrq
                exact absurd (List.cons.inj hrq).1 hji

/-- `setNoteByPath` on a non-empty in-range path succeeds with the written
note resolvable afterwards (shared helper). -/
theorem setNoteByPath_ok_inRange (f : List Note) (p : List Nat) (u : Note)
    (hne : p ≠ []) (hir : pathInRange f p = true) :
    ∃ f', setNoteByPath f p u = .ok f' ∧ getNoteByPath f' p = some u := by
  obtain ⟨f', h1, h2⟩ := setNoteByPathAux_inRange u hne hir
  refine ⟨f', ?_, h2⟩
  rw [setNoteByPath, if_neg (by simp [hne])]
  exact h1

/-! ## C1: replace on in-range and out-of-range paths -/

/-- Counterexample to C1 as stated: with a one-note forest and the
out-of-range path `[1]` (index 1 at a level of length 1), `setNoteByPath`
does not return `NotFound` with the forest unchanged — the JavaScript
assignment `level[1] = updated` appends, so the forest gains a second
root note. -/
theorem setNoteByPath_outOfRange_counterexample :
    setNoteByPath [defaultRootNote] [1] defaultSubNote =
      .ok [defaultRootNote, defaultSubNote] ∧
    [defaultRootNote, defaultSubNote] ≠ [defaultRootNote] := by decide

/-- C1 (amended): for every non-empty in-range path, `setNoteByPath`
produces a new forest reflecting the update at the addressed position
(creating an empty children sequence for any ancestor on the path that
lacks one — which is what makes the addressed position resolvable
afterwards); out-of-range paths do not return `NotFound`: a final element
beyond the level extends the level (see the counterexample) and an
out-of-range non-final element throws. -/
theorem setNoteByPath_inRange (f : List Note) (p : List Nat) (u : Note)
    (hne : p ≠ []) (hir : pathInRange f p = true) :
    ∃ f', setNoteByPath f p u = .ok f' ∧ getNoteByPath f' p = some u :=
  setNoteByPath_ok_inRange f p u hne hir

/-- Witness for C1 (amended) at a concrete in-range input. -/
theorem setNoteByPath_inRange_witness :
    (([0] : List Nat) ≠ []) ∧ pathInRange [defaultRootNote] [0] = true ∧
    ∃ f', setNoteByPath [defaultRootNote] [0] defaultSubNote = .ok f' ∧
      getNoteByPath f' [0] = some defaultSubNote :=
  ⟨by decide, by decide, setNoteByPath_inRange _ _ _ (by decide) (by decide)⟩

/-! ## C2: createChild guards and effect -/

/-- Counterexample to C2 as stated: the parent path `[0, 0, 0, 0]` has
length 4, yet on the empty forest `handleAddSubNote` returns `NotFound`,
not `DepthExceeded` — the source checks resolution before the depth
limit. -/
theorem handleAddSubNote_depth4_counterexample :
    handleAddSubNote [] [0, 0, 0, 0] = .notFound ∧
    AddResult.notFound ≠ AddResult.depthExceeded := by decide

/-- C2 (amended): `handleAddSubNote` returns `NotFound` whenever the
parent path does not resolve (whatever its length, the forest unchanged);
`DepthExceeded` when it resolves but has length ≥ 4 (forest unchanged);
otherwise it appends the default sub-note to the parent's children, and
the new note is found at `parentPath + [newIndex]` where `newIndex` is
the parent's previous child count. -/
theorem handleAddSubNote_spec (f : List Note) (p : List Nat) :
    (getNoteByPath f p = none → handleAddSubNote f p = .notFound) ∧
    (∀ parent, getNoteByPath f p = some parent → 4 ≤ p.length →
        handleAddSubNote f p = .depthExceeded) ∧
    (∀ parent, getNoteByPath f p = some parent → p.length < 4 →
        ∃ f', handleAddSubNote f p = .ok f' ∧
          getNoteByPath f' p =
            some (Note.mk parent.title parent.content
              (some (parent.subNotes.getD [] ++ [defaultSubNote])) parent.isCollapsed) ∧
          getNoteByPath f' (p ++ [(parent.subNotes.getD []).length]) =
            some defaultSubNote) := by
  refine ⟨?_, ?_, ?_⟩
  · intro h
    simp only [handleAddSubNote, h]
  · intro parent h h4
    simp only [handleAddSubNote, h]
    rw [if_pos h4]
  · intro parent h hlt4
    have hne : p ≠ [] := by rintro rfl; simp [getNoteByPath] at h
    have hir := pathInRange_of_get h
    obtain ⟨f', hset, hget⟩ :=
      setNoteByPath_ok_inRange f p
        (Note.mk parent.title parent.content
          (some (parent.subNotes.getD [] ++ [defaultSubNote])) parent.isCollapsed)
        hne hir
    refine ⟨f', ?_, hget, ?_⟩
    · simp only [handleAddSubNote, h]
      rw [if_neg (by omega)]
      simp only [hset]
    · rw [getNoteByPath_snoc hne _ f', hget]
      simp [Note.subNotes, List.getElem?_concat_length]

/-- Witness for C2 (amended): all three branches at concrete inputs. -/
theorem handleAddSubNote_spec_witness :
    (getNoteByPath [] ([0] : List Nat) = none → handleAddSubNote [] [0] = .notFound) ∧
    handleAddSubNote [] [0] = .notFound ∧
    (∃ f', handleAddSubNote [defaultRootNote] [0] = .ok f' ∧
      getNoteByPath f' [0] =
        some (Note.mk "Untitled Note" "" (some [defaultSubNote]) (some false)) ∧
      getNoteByPath f' [0, 0] = some defaultSubNote) := by
  refine ⟨(handleAddSubNote_spec [] [0]).1, ?_, ?_⟩
  · exact (handleAddSubNote_spec [] [0]).1 (by decide)
  · have h := (handleAddSubNote_spec [defaultRootNote] [0]).2.2 defaultRootNote
      (by decide) (by decide)
    simpa [defaultRootNote] using h

/-- `gatherNote` in closed form: the entry itself followed by the gather
of its children (the `length > 0` guard is immaterial because gathering
the empty level yields nothing). -/
theorem gatherNote_eq (p : List Nat) (n : Note) :
    gatherNote p n = (p, n) :: gatherLevel p 0 (n.subNotes.getD []) := by
  obtain ⟨t, c, s, i⟩ := n
  cases s with
  | none => simp [gatherNote, Note.subNotes, gatherLevel]
  | some cs =>
    cases cs with
    | nil => simp [gatherNote, gatherLevel, Note.subNotes]
    | cons a as => simp [gatherNote, Note.subNotes]

/-- Dropping the head of a level shifts resolution indices by one. -/
theorem getNoteByPath_cons_shift (n : Note) (rest : List Note) (j : Nat)
    (tail : List Nat) :
    getNoteByPath (n :: rest) ((j + 1) :: tail) = getNoteByPath rest (j :: tail) := by
  cases tail with
  | nil => rw [getNoteByPath_singleton, getNoteByPath_singleton, List.getElem?_cons_succ]
  | cons t ts =>
    rw [getNoteByPath_cons_cons, getNoteByPath_cons_cons, List.getElem?_cons_succ]

/-- Resolution starting with index 0 enters the head note. -/
theorem getNoteByPath_cons_zero (n : Note) (rest : List Note) (t0 : Nat)
    (ts : List Nat) :
    getNoteByPath (n :: rest) (0 :: t0 :: ts) =
      match n.subNotes with
      | none => none
      | some cs => getNoteByPath cs (t0 :: ts) := by
  simp only [getNoteByPath_cons_cons, List.getElem?_cons_zero]

/-- Every entry `(path, note)` produced by the gather traversal resolves
to that very note, provided resolution inside the traversed level lifts
to the ambient forest (strong induction on size). -/
theorem gather_resolve_aux (k : Nat) :
    (∀ n : Note, sizeOf n ≤ k → ∀ (q : List Nat) (forest : List Note),
      (∀ tail m, tail ≠ [] → getNoteByPath (n.subNotes.getD []) tail = some m →
          getNoteByPath forest (q ++ tail) = some m) →
      getNoteByPath forest q = some n →
      ∀ e ∈ gatherNote q n, getNoteByPath forest e.1 = some e.2) ∧
    (∀ level : List Note, sizeOf level ≤ k →
      ∀ (q : List Nat) (idx : Nat) (forest : List Note),
      (∀ j tail m, getNoteByPath level (j :: tail) = some m →
          getNoteByPath forest (q ++ ((idx + j) :: tail)) = some m) →
      ∀ e ∈ gatherLevel q idx level, getNoteByPath forest e.1 = some e.2) := by
  induction k with
  | zero =>
    constructor
    · intro n hn; exfalso; cases n; simp at hn
    · intro level hl q idx forest _ e he
      cases level with
      | nil => simp [gatherLevel] at he
      | cons a as => simp at hl
  | succ k ih =>
    constructor
    · intro n hn q forest hlift hq e he
      rw [gatherNote_eq] at he
      rcases List.mem_cons.1 he with rfl | he'
      · exact hq
      · have hsz : sizeOf (n.subNotes.getD []) ≤ k := by
          have := Note.sizeOf_subNotes_getD n
          omega
        refine ih.2 (n.subNotes.getD []) hsz q 0 forest ?_ e he'
        intro j tail m hres
        have := hlift (j :: tail) m (by simp) hres
        simpa using this
    · intro level hl q idx forest hlift e he
      cases level with
      | nil => simp [gatherLevel] at he
      | cons n rest =>
        have hszn : sizeOf n ≤ k := by simp at hl; omega
        have hszr : sizeOf rest ≤ k := by simp at hl; omega
        rw [gatherLevel] at he
        rcases List.mem_append.1 he with he' | he'
        · refine ih.1 n hszn (q ++ [idx]) forest ?_ ?_ e he'
          · intro tail m htne hres
            cases tail with
            | nil => exact absurd rfl htne
            | cons t0 ts =>
              have hstep : getNoteByPath (n :: rest) (0 :: t0 :: ts) = some m := by
                rw [getNoteByPath_cons_zero]
                cases hsub : n.subNotes with
                | none =>
                  rw [hsub] at hres
                  simp only [Option.getD_none] at hres
                  rw [getNoteByPath_nil_forest] at hres
                  exact Option.noConfusion hres
                | some cs =>
                  rw [hsub] at hres
                  simp only [Option.getD_some] at hres
                  exact hres
              have := hlift 0 (t0 :: ts) m hstep
              simpa [List.append_assoc] using this
          · have h0 : getNoteByPath (n :: rest) [0] = some n := by
              rw [getNoteByPath_singleton, List.getElem?_cons_zero]
            have := hlift 0 [] n h0
            simpa using this
        · refine ih.2 rest hszr q (idx + 1) forest ?_ e he'
          intro j tail m hres
          have hshift : getNoteByPath (n :: rest) ((j + 1) :: tail) = some m := by
            rw [getNoteByPath_cons_shift]; exact hres
          have := hlift (j + 1) tail m hshift
          have harith : idx + (j + 1) = idx + 1 + j := by omega
          rwa [harith] at this

/-- The gather traversal emits exactly one entry per note (strong
induction on size). -/
theorem gather_count_aux (k : Nat) :
    (∀ n : Note, sizeOf n ≤ k → ∀ q, (gatherNote q n).length = countNote n) ∧
    (∀ level : List Note, sizeOf level ≤ k →
      ∀ q idx, (gatherLevel q idx level).length = countLevel level) := by
  induction k with
  | zero =>
    constructor
    · intro n hn; exfalso; cases n; simp at hn
    · intro level hl q idx
      cases level with
      | nil => simp [gatherLevel, countLevel]
      | cons a as => simp at hl
  | succ k ih =>
    constructor
    · intro n hn q
      have hsz : sizeOf (n.subNotes.getD []) ≤ k := by
        have := Note.sizeOf_subNotes_getD n
        omega
      rw [gatherNote_eq, countNote]
      simp [ih.2 (n.subNotes.getD []) hsz q 0, Nat.add_comm]
    · intro level hl q idx
      cases level with
      | nil => simp [gatherLevel, countLevel]
      | cons n rest =>
        have hszn : sizeOf n ≤ k := by simp at hl; omega
        have hszr : sizeOf rest ≤ k := by simp at hl; omega
        rw [gatherLevel, countLevel]
        simp [ih.1 n hszn, ih.2 rest hszr]

/-- Shape and distinctness of gathered paths: every path extends the
ambient prefix, the first extra index is at least the running index, and
all emitted paths are distinct (strong induction on size). -/
theorem gather_paths_aux (k : Nat) :
    (∀ n : Note, sizeOf n ≤ k → ∀ q,
      (∀ e ∈ gatherNote q n, ∃ t, e.1 = q ++ t) ∧
      ((gatherNote q n).map Prod.fst).Nodup) ∧
    (∀ level : List Note, sizeOf level ≤ k → ∀ q idx,
      (∀ e ∈ gatherLevel q idx level, ∃ j t, idx ≤ j ∧ e.1 = q ++ j :: t) ∧
      ((gatherLevel q idx level).map Prod.fst).Nodup) := by
  induction k with
  | zero =>
    constructor
    · intro n hn; exfalso; cases n; simp at hn
    · intro level hl q idx
      cases level with
      | nil => simp [gatherLevel]
      | cons a as => simp at hl
  | succ k ih =>
    constructor
    · intro n hn q
      have hsz : sizeOf (n.subNotes.getD []) ≤ k := by
        have := Note.sizeOf_subNotes_getD n
        omega
      obtain ⟨hshape, hnodup⟩ := ih.2 (n.subNotes.getD []) hsz q 0
      constructor
      · intro e he
        rw [gatherNote_eq] at he
        rcases List.mem_cons.1 he with rfl | he'
        · exact ⟨[], by simp⟩
        · obtain ⟨j, t, _, ht⟩ := hshape e he'
          exact ⟨j :: t, ht⟩
      · rw [gatherNote_eq]
        simp only [List.map_cons, List.nodup_cons]
        refine ⟨?_, hnodup⟩
        intro hmem
        obtain ⟨e, he, hfst⟩ := List.mem_map.1 hmem
        obtain ⟨j, t, _, ht⟩ := hshape e he
        rw [ht] at hfst
        have := congrArg List.length hfst
        simp at this
    · intro level hl q idx
      cases level with
      | nil => simp [gatherLevel]
      | cons n rest =>
        have hszn : sizeOf n ≤ k := by simp at hl; omega
        have hszr : sizeOf rest ≤ k := by simp at hl; omega
        obtain ⟨hshape₁, hnodup₁⟩ := ih.1 n hszn (q ++ [idx])
        obtain ⟨hshape₂, hnodup₂⟩ := ih.2 rest hszr q (idx + 1)
        constructor
        · intro e he
          rw [gatherLevel] at he
          rcases List.mem_append.1 he with he' | he'
          · obtain ⟨t, ht⟩ := hshape₁ e he'
            exact ⟨idx, t, le_rfl, by simp [ht]⟩
          · obtain ⟨j, t, hj, ht⟩ := hshape₂ e he'
            exact ⟨j, t, by omega, ht⟩
        · rw [gatherLevel, List.map_append]
          refine List.Nodup.append hnodup₁ hnodup₂ ?_
          intro a ha₁ ha₂
          obtain ⟨e₁, he₁, rfl⟩ := List.mem_map.1 ha₁
          obtain ⟨e₂, he₂, hfst⟩ := List.mem_map.1 ha₂
          obtain ⟨t₁, ht₁⟩ := hshape₁ e₁ he₁
          obtain ⟨j, t₂, hj, ht₂⟩ := hshape₂ e₂ he₂
          rw [ht₂, ht₁] at hfst
          have hcc : j = idx ∧ t₂ = t₁ := by
            have h := hfst
            rw [List.append_assoc] at h
            simpa using List.append_cancel_left h
          obtain ⟨h1, -⟩ := hcc
          omega

/-! ## C9: gather/resolve consistency -/

/-- C9: every `(path, note)` entry emitted by `gatherAllNotes` satisfies
`getNoteByPath path = note` against the same forest, and the traversal
emits exactly one entry per note of the forest (its length is the total
note count and all emitted paths are distinct). -/
theorem gatherAllNotes_consistent (f : List Note) :
    (∀ e ∈ gatherAllNotes f, getNoteByPath f e.1 = some e.2) ∧
    (gatherAllNotes f).length = countLevel f ∧
    ((gatherAllNotes f).map Prod.fst).Nodup := by
  refine ⟨?_, ?_, ?_⟩
  · intro e he
    refine (gather_resolve_aux (sizeOf f)).2 f le_rfl [] 0 f ?_ e he
    intro j tail m h
    simpa using h
  · exact (gather_count_aux (sizeOf f)).2 f le_rfl [] 0
  · exact ((gather_paths_aux (sizeOf f)).2 f le_rfl [] 0).2

/-- Witness for C9 at a concrete two-note forest. -/
theorem gatherAllNotes_consistent_witness :
    (∀ e ∈ gatherAllNotes
        [Note.mk "a" "" (some [Note.mk "b" "x" none none]) none],
      getNoteByPath [Note.mk "a" "" (some [Note.mk "b" "x" none none]) none] e.1 =
        some e.2) ∧
    (gatherAllNotes [Note.mk "a" "" (some [Note.mk "b" "x" none none]) none]).length =
      countLevel [Note.mk "a" "" (some [Note.mk "b" "x" none none]) none] ∧
    ((gatherAllNotes [Note.mk "a" "" (some [Note.mk "b" "x" none none]) none]).map
        Prod.fst).Nodup :=
  gatherAllNotes_consistent [Note.mk "a" "" (some [Note.mk "b" "x" none none]) none]

/-! ## C3: search semantics -/

/-- C3: if the query trimmed of whitespace is empty, search returns no
results; otherwise it returns exactly the subsequence (`Sublist`, hence in
pre-order traversal order) of `gatherAllNotes` whose entries' title or
content, lower-cased, contains the lower-cased query as a substring —
regardless of note depth. -/
theorem computeSearchResults_spec (f : List Note) (q : String) :
    ((jsTrim q).isEmpty = true → computeSearchResults f q = []) ∧
    ((jsTrim q).isEmpty = false →
      computeSearchResults f q =
        (gatherAllNotes f).filter (fun e => searchMatches (jsToLower q) e.2) ∧
      (computeSearchResults f q).Sublist (gatherAllNotes f) ∧
      ∀ e, e ∈ computeSearchResults f q ↔
        e ∈ gatherAllNotes f ∧ searchMatches (jsToLower q) e.2 = true) := by
  constructor
  · intro h
    rw [computeSearchResults, if_pos h]
  · intro h
    have hne : ¬(jsTrim q).isEmpty = true := by simp [h]
    have heq : computeSearchResults f q =
        (gatherAllNotes f).filter (fun e => searchMatches (jsToLower q) e.2) := by
      rw [computeSearchResults, if_neg hne]
    refine ⟨heq, ?_, ?_⟩
    · rw [heq]; exact List.filter_sublist _
    · intro e
      rw [heq, List.mem_filter]

/-- Witness for C3 on the spec's scenario: root "Shopping"/"milk eggs"
with child "Sub"/"bread"; searching "bread" returns exactly the child, at
a path of length 2. -/
theorem computeSearchResults_spec_witness :
    ((jsTrim "bread").isEmpty = true →
      computeSearchResults
        [Note.mk "Shopping" "milk eggs"
          (some [Note.mk "Sub" "bread" (some []) (some false)]) (some false)]
        "bread" = []) ∧
    computeSearchResults
        [Note.mk "Shopping" "milk eggs"
          (some [Note.mk "Sub" "bread" (some []) (some false)]) (some false)]
        "bread" =
      [([0, 0], Note.mk "Sub" "bread" (some []) (some false))] :=
  ⟨(computeSearchResults_spec
      [Note.mk "Shopping" "milk eggs"
        (some [Note.mk "Sub" "bread" (some []) (some false)]) (some false)]
      "bread").1,
   by
    have hg : gatherAllNotes
        [Note.mk "Shopping" "milk eggs"
          (some [Note.mk "Sub" "bread" (some []) (some false)]) (some false)] =
        [([0], Note.mk "Shopping" "milk eggs"
            (some [Note.mk "Sub" "bread" (some []) (some false)]) (some false)),
         ([0, 0], Note.mk "Sub" "bread" (some []) (some false))] := by
      simp [gatherAllNotes, gatherLevel, gatherNote]
    rw [computeSearchResults, if_neg (by decide), hg]
    decide⟩

/-- `noteDepthLE` at a positive bound looks at the children. -/
theorem noteDepthLE_succ (n : Note) (k : Nat) :
    noteDepthLE n (k + 1) = forestDepthLE (n.subNotes.getD []) k := by
  simp [noteDepthLE]

/-- No note fits in zero depth. -/
theorem noteDepthLE_zero (n : Note) : noteDepthLE n 0 = false := by
  simp [noteDepthLE]

/-- A note that fits in depth `k` forces `k ≥ 1`. -/
theorem noteDepthLE_pos {n : Note} {k : Nat} (h : noteDepthLE n k = true) : 1 ≤ k := by
  cases k with
  | zero => rw [noteDepthLE_zero] at h; exact Bool.noConfusion h
  | succ k => omega

/-- `forestDepthLE` is the conjunction over the level's notes. -/
theorem forestDepthLE_iff_mem (level : List Note) (k : Nat) :
    forestDepthLE level k = true ↔ ∀ n ∈ level, noteDepthLE n k = true := by
  induction level with
  | nil => simp [forestDepthLE]
  | cons a as ih => simp [forestDepthLE, ih]

/-- Resolution in a depth-bounded forest yields depth-bounded paths and
notes: the path uses at most `k` levels and the note's subtree fits in
the remaining depth. -/
theorem depth_of_get {p : List Nat} :
    ∀ {level : List Note} {n : Note} {k : Nat},
      forestDepthLE level k = true → getNoteByPath level p = some n →
      p.length ≤ k ∧ noteDepthLE n (k + 1 - p.length) = true := by
  induction p with
  | nil => intro level n k _ h; simp [getNoteByPath] at h
  | cons idx rest ih =>
    intro level n k hd h
    cases hidx : level[idx]? with
    | none =>
      cases rest with
      | nil => rw [getNoteByPath_singleton, hidx] at h; exact Option.noConfusion h
      | cons r0 rrt =>
        simp only [getNoteByPath_cons_cons, hidx] at h
        exact Option.noConfusion h
    | some cur =>
      have hmem : cur ∈ level := by
        have := List.getElem?_eq_some.1 hidx
        obtain ⟨hlt, hget⟩ := this
        exact hget ▸ List.getElem_mem hlt
      have hcur : noteDepthLE cur k = true := (forestDepthLE_iff_mem level k).1 hd cur hmem
      have hk1 : 1 ≤ k := noteDepthLE_pos hcur
      cases rest with
      | nil =>
        rw [getNoteByPath_singleton, hidx] at h
        injection h with hn
        subst hn
        constructor
        · simpa using hk1
        · simpa using hcur
      | cons r0 rrt =>
        simp only [getNoteByPath_cons_cons, hidx] at h
        cases hsub : cur.subNotes with
        | none => rw [hsub] at h; exact Option.noConfusion h
        | some cs =>
          rw [hsub] at h
          obtain ⟨k', rfl⟩ : ∃ k', k = k' + 1 := ⟨k - 1, by omega⟩
          have hcs : forestDepthLE cs k' = true := by
            have := hcur
            rw [noteDepthLE_succ, hsub] at this
            simpa using this
          obtain ⟨h1, h2⟩ := ih hcs h
          refine ⟨by simpa using Nat.add_le_add_right h1 1, ?_⟩
          have harith : k' + 1 + 1 - (r0 :: rrt).length.succ = k' + 1 - (r0 :: rrt).length := by
            omega
          simpa [harith] using h2

/-- Depth bound for a level with one element replaced. -/
theorem forestDepthLE_set {level : List Note} {k : Nat} (hd : forestDepthLE level k = true)
    {u : Note} (hu : noteDepthLE u k = true) (idx : Nat) :
    forestDepthLE (level.set idx u) k = true := by
  rw [forestDepthLE_iff_mem]
  intro n hn
  rcases List.mem_or_eq_of_mem_set hn with h | rfl
  · exact (forestDepthLE_iff_mem level k).1 hd n h
  · exact hu

/-- Depth bound for a level extended by one element. -/
theorem forestDepthLE_append {level : List Note} {k : Nat}
    (hd : forestDepthLE level k = true) {u : Note} (hu : noteDepthLE u k = true) :
    forestDepthLE (level ++ [u]) k = true := by
  rw [forestDepthLE_iff_mem]
  intro n hn
  rcases List.mem_append.1 hn with h | h
  · exact (forestDepthLE_iff_mem level k).1 hd n h
  · rw [List.mem_singleton.1 h]; exact hu

/-- The `setNoteByPath` walk preserves the depth bound when the written
note fits in the depth remaining at the end of the path. -/
theorem set_preserves_depth {p : List Nat} :
    ∀ {level f' : List Note} {u : Note} {k : Nat},
      setNoteByPathAux level u p = .ok f' →
      forestDepthLE level k = true →
      noteDepthLE u (k + 1 - p.length) = true →
      p ≠ [] → p.length ≤ k →
      forestDepthLE f' k = true := by
  induction p with
  | nil => intro _ _ _ _ _ _ _ hne _; exact absurd rfl hne
  | cons idx rest ih =>
    intro level f' u k hset hd hu _ hlen
    cases rest with
    | nil =>
      rw [setNoteByPathAux_singleton] at hset
      have hu' : noteDepthLE u k = true := by simpa using hu
      split_ifs at hset with h1 h2
      · injection hset with hf; subst hf
        exact forestDepthLE_set hd hu' idx
      · injection hset with hf; subst hf
        exact forestDepthLE_append hd hu'
    | cons r0 rrt =>
      rw [setNoteByPathAux_cons_cons] at hset
      cases hidx : level[idx]? with
      | none => simp only [hidx] at hset; exact SetResult.noConfusion hset
      | some cur =>
        simp only [hidx] at hset
        cases hsetc : setNoteByPathAux (cur.subNotes.getD []) u (r0 :: rrt) with
        | crash => simp only [hsetc] at hset; exact SetResult.noConfusion hset
        | sparse => simp only [hsetc] at hset; exact SetResult.noConfusion hset
        | ok c =>
          simp only [hsetc] at hset
          injection hset with hf
          subst hf
          have hmem : cur ∈ level := by
            obtain ⟨hlt, hget⟩ := List.getElem?_eq_some.1 hidx
            exact hget ▸ List.getElem_mem hlt
          have hcur : noteDepthLE cur k = true :=
            (forestDepthLE_iff_mem level k).1 hd cur hmem
          have hk1 : 1 ≤ k := by
            have hh := hlen
            simp only [List.length_cons] at hh
            omega
          obtain ⟨k', rfl⟩ : ∃ k', k = k' + 1 := ⟨k - 1, by omega⟩
          have hchildren : forestDepthLE (cur.subNotes.getD []) k' = true := by
            rw [noteDepthLE_succ] at hcur; exact hcur
          have hlen' : (r0 :: rrt).length ≤ k' := by
            simp only [List.length_cons] at hlen ⊢; omega
          have hu' : noteDepthLE u (k' + 1 - (r0 :: rrt).length) = true := by
            have harith : k' + 1 + 1 - (idx :: r0 :: rrt).length =
                k' + 1 - (r0 :: rrt).length := by
              simp only [List.length_cons]; omega
            rwa [harith] at hu
          have hc : forestDepthLE c k' = true :=
            ih hsetc hchildren hu' (by simp) hlen'
          refine forestDepthLE_set hd ?_ idx
          rw [noteDepthLE_succ]
          simpa [Note.subNotes] using hc

/-- Paths gathered under a depth bound use at most that many extra levels
(strong induction on size). -/
theorem gather_depth_aux (k0 : Nat) :
    (∀ n : Note, sizeOf n ≤ k0 → ∀ (q : List Nat) (k : Nat), noteDepthLE n k = true →
      ∀ e ∈ gatherNote q n, e.1.length ≤ q.length + (k - 1)) ∧
    (∀ level : List Note, sizeOf level ≤ k0 →
      ∀ (q : List Nat) (idx k : Nat), forestDepthLE level k = true →
      ∀ e ∈ gatherLevel q idx level, e.1.length ≤ q.length + k) := by
  induction k0 with
  | zero =>
    constructor
    · intro n hn; exfalso; cases n; simp at hn
    · intro level hl q idx k _ e he
      cases level with
      | nil => simp [gatherLevel] at he
      | cons a as => simp at hl
  | succ k0 ih =>
    constructor
    · intro n hn q k hk e he
      have hpos := noteDepthLE_pos hk
      obtain ⟨k', rfl⟩ : ∃ k', k = k' + 1 := ⟨k - 1, by omega⟩
      rw [gatherNote_eq] at he
      rcases List.mem_cons.1 he with rfl | he'
      · simp
      · have hsz : sizeOf (n.subNotes.getD []) ≤ k0 := by
          have := Note.sizeOf_subNotes_getD n
          omega
        have hchildren : forestDepthLE (n.subNotes.getD []) k' = true := by
          rw [noteDepthLE_succ] at hk; exact hk
        have := ih.2 (n.subNotes.getD []) hsz q 0 k' hchildren e he'
        simpa using this
    · intro level hl q idx k hk e he
      cases level with
      | nil => simp [gatherLevel] at he
      | cons n rest =>
        have hszn : sizeOf n ≤ k0 := by simp at hl; omega
        have hszr : sizeOf rest ≤ k0 := by simp at hl; omega
        rw [forestDepthLE] at hk
        simp only [Bool.and_eq_true] at hk
        rw [gatherLevel] at he
        rcases List.mem_append.1 he with he' | he'
        · have hpos := noteDepthLE_pos hk.1
          have := ih.1 n hszn (q ++ [idx]) k hk.1 e he'
          simp only [List.length_append, List.length_cons, List.length_nil] at this
          omega
        · exact ih.2 rest hszr q (idx + 1) k hk.2 e he'

/-- A successful `handleAddSubNote` means the parent resolved, the depth
guard passed, and the forest is the `setNoteByPath` of the parent with the
default sub-note appended to its children. -/
theorem handleAddSubNote_ok_elim {f f' : List Note} {p : List Nat}
    (h : handleAddSubNote f p = .ok f') :
    ∃ parent, getNoteByPath f p = some parent ∧ p.length < 4 ∧
      setNoteByPathAux f
        (Note.mk parent.title parent.content
          (some (parent.subNotes.getD [] ++ [defaultSubNote])) parent.isCollapsed)
        p = .ok f' := by
  unfold handleAddSubNote at h
  cases hres : getNoteByPath f p with
  | none => simp only [hres] at h; exact AddResult.noConfusion h
  | some parent =>
    simp only [hres] at h
    by_cases hlen : p.length ≥ 4
    · rw [if_pos hlen] at h
      exact AddResult.noConfusion h
    · rw [if_neg hlen] at h
      have hne : p ≠ [] := by
        rintro rfl
        rw [getNoteByPath] at hres
        exact Option.noConfusion hres
      rw [setNoteByPath, if_neg (by simp [hne])] at h
      cases hset : setNoteByPathAux f
          (Note.mk parent.title parent.content
            (some (parent.subNotes.getD [] ++ [defaultSubNote])) parent.isCollapsed) p with
      | ok f'' =>
        rw [hset] at h
        injection h with hf
        subst hf
        exact ⟨parent, rfl, by omega, hset⟩
      | crash => rw [hset] at h; exact AddResult.noConfusion h
      | sparse => rw [hset] at h; exact AddResult.noConfusion h

/-- The default notes fit within any positive depth bound. -/
theorem defaultNote_depth (m : Nat) :
    noteDepthLE defaultRootNote (m + 1) = true ∧
    noteDepthLE defaultSubNote (m + 1) = true := by
  constructor <;>
    simp [defaultRootNote, defaultSubNote, noteDepthLE_succ, Note.subNotes, forestDepthLE]

/-- Running create calls preserves the depth-4 bound, and every collected
path has length between 1 and 4. -/
theorem runCreate_depth (ops : List CreateOp) :
    ∀ f : List Note, forestDepthLE f 4 = true →
      forestDepthLE (runCreate f ops).1 4 = true ∧
      ∀ pe ∈ (runCreate f ops).2, 1 ≤ pe.1.length ∧ pe.1.length ≤ 4 := by
  induction ops with
  | nil => intro f hf; exact ⟨hf, by simp [runCreate]⟩
  | cons op ops ih =>
    intro f hf
    have hstep : forestDepthLE (stepCreate f op).1 4 = true ∧
        ∀ pe ∈ (stepCreate f op).2, 1 ≤ pe.1.length ∧ pe.1.length ≤ 4 := by
      cases op with
      | newNote =>
        refine ⟨?_, ?_⟩
        · exact forestDepthLE_append hf (defaultNote_depth 3).1
        · intro pe hpe
          simp only [stepCreate, handleNewNote, List.mem_singleton] at hpe
          subst hpe
          simp
      | addSub p =>
        cases hadd : handleAddSubNote f p with
        | ok f₁ =>
          obtain ⟨parent, hres, hlen, hset⟩ := handleAddSubNote_ok_elim hadd
          have hne : p ≠ [] := by
            rintro rfl
            rw [getNoteByPath] at hres
            exact Option.noConfusion hres
          have hp1 : 1 ≤ p.length := by
            cases p with
            | nil => exact absurd rfl hne
            | cons a as => simp
          obtain ⟨hple, hdparent⟩ := depth_of_get hf hres
          have hu : noteDepthLE
              (Note.mk parent.title parent.content
                (some (parent.subNotes.getD [] ++ [defaultSubNote])) parent.isCollapsed)
              (4 + 1 - p.length) = true := by
            obtain ⟨m, hm⟩ : ∃ m, 4 + 1 - p.length = m + 1 + 1 :=
              ⟨4 - p.length - 1, by omega⟩
            rw [hm, noteDepthLE_succ]
            simp only [Note.subNotes, Option.getD_some]
            rw [forestDepthLE_iff_mem]
            intro n hn
            rcases List.mem_append.1 hn with hmem | hmem
            · have : forestDepthLE (parent.subNotes.getD []) (m + 1) = true := by
                have h5 : 4 + 1 - p.length = (m + 1) + 1 := hm
                rw [h5, noteDepthLE_succ] at hdparent
                exact hdparent
              exact (forestDepthLE_iff_mem _ _).1 this n hmem
            · rw [List.mem_singleton.1 hmem]
              exact (defaultNote_depth m).2
          refine ⟨?_, ?_⟩
          · simp only [stepCreate, hadd]
            exact set_preserves_depth hset hf hu hne (by omega)
          · intro pe hpe
            simp only [stepCreate, hadd, List.mem_singleton] at hpe
            subst hpe
            simp only [List.length_append, List.length_cons, List.length_nil]
            omega
        | notFound => simp only [stepCreate, hadd]; exact ⟨hf, by simp⟩
        | depthExceeded => simp only [stepCreate, hadd]; exact ⟨hf, by simp⟩
        | crash => simp only [stepCreate, hadd]; exact ⟨hf, by simp⟩
        | sparse => simp only [stepCreate, hadd]; exact ⟨hf, by simp⟩
    have hrest := ih (stepCreate f op).1 hstep.1
    rw [runCreate]
    refine ⟨hrest.1, ?_⟩
    intro pe hpe
    simp only [List.mem_append] at hpe
    rcases hpe with hpe | hpe
    · exact hstep.2 pe hpe
    · exact hrest.2 pe hpe

/-! ## C5: depth invariant -/

/-- C5: starting from the empty forest, after any sequence of create
calls every note reachable in the resulting forest sits at a path of
length between 1 and 4, and every path produced by a create call has
length between 1 and 4 — no sequence of operations creates a note at
depth greater than 4. -/
theorem depth_invariant (ops : List CreateOp) :
    (∀ e ∈ gatherAllNotes (runCreate [] ops).1, 1 ≤ e.1.length ∧ e.1.length ≤ 4) ∧
    ∀ pe ∈ (runCreate [] ops).2, 1 ≤ pe.1.length ∧ pe.1.length ≤ 4 := by
  have hrun := runCreate_depth ops [] (by simp [forestDepthLE])
  refine ⟨?_, hrun.2⟩
  intro e he
  constructor
  · obtain ⟨j, t, -, ht⟩ :=
      ((gather_paths_aux (sizeOf (runCreate [] ops).1)).2 _ le_rfl [] 0).1 e he
    rw [ht]; simp
  · have := (gather_depth_aux (sizeOf (runCreate [] ops).1)).2 _ le_rfl [] 0 4 hrun.1 e he
    simpa using this

/-- Witness for C5 on the sequence `createRoot; createChild [0]`. -/
theorem depth_invariant_witness :
    (∀ e ∈ gatherAllNotes (runCreate [] [CreateOp.newNote, CreateOp.addSub [0]]).1,
      1 ≤ e.1.length ∧ e.1.length ≤ 4) ∧
    ∀ pe ∈ (runCreate [] [CreateOp.newNote, CreateOp.addSub [0]]).2,
      1 ≤ pe.1.length ∧ pe.1.length ≤ 4 :=
  depth_invariant [CreateOp.newNote, CreateOp.addSub [0]]

/-- One create call preserves resolution of every already-resolvable
path, keeping the note's `title`, `content` and `isCollapsed` (children
may grow). -/
theorem stepCreate_preserves (f : List Note) (op : CreateOp) :
    ∀ r m, getNoteByPath f r = some m →
      ∃ m', getNoteByPath (stepCreate f op).1 r = some m' ∧
        m'.title = m.title ∧ m'.content = m.content ∧
        m'.isCollapsed = m.isCollapsed := by
  intro r m hr
  cases op with
  | newNote =>
    exact ⟨m, getNoteByPath_prefix ⟨[defaultRootNote], rfl⟩ hr, rfl, rfl, rfl⟩
  | addSub p =>
    cases hadd : handleAddSubNote f p with
    | ok f₁ =>
      obtain ⟨parent, hres, _, hset⟩ := handleAddSubNote_ok_elim hadd
      have hpre : parent.subNotes.getD [] <+:
          (Note.mk parent.title parent.content
            (some (parent.subNotes.getD [] ++ [defaultSubNote]))
            parent.isCollapsed).subNotes.getD [] := by
        simp only [Note.subNotes, Option.getD_some]
        exact ⟨[defaultSubNote], rfl⟩
      obtain ⟨m', hm', hmq, hmneq⟩ :=
        getNoteByPath_setAux_preserved hres hset hpre r m hr
      simp only [stepCreate, hadd]
      by_cases hrp : r = p
      · subst hrp
        rw [hres] at hr
        injection hr with hm
        subst hm
        exact ⟨_, hm', by simp [hmq rfl, Note.title, Note.content, Note.isCollapsed]⟩
      · obtain ⟨h1, h2, h3, -⟩ := hmneq hrp
        exact ⟨m', hm', h1, h2, h3⟩
    | notFound => simp only [stepCreate, hadd]; exact ⟨m, hr, rfl, rfl, rfl⟩
    | depthExceeded => simp only [stepCreate, hadd]; exact ⟨m, hr, rfl, rfl, rfl⟩
    | crash => simp only [stepCreate, hadd]; exact ⟨m, hr, rfl, rfl, rfl⟩
    | sparse => simp only [stepCreate, hadd]; exact ⟨m, hr, rfl, rfl, rfl⟩

/-- Running create calls preserves resolution with `title`, `content`,
`isCollapsed` kept. -/
theorem runCreate_preserves (ops : List CreateOp) :
    ∀ (f : List Note) (r : List Nat) (m : Note), getNoteByPath f r = some m →
      ∃ m', getNoteByPath (runCreate f ops).1 r = some m' ∧
        m'.title = m.title ∧ m'.content = m.content ∧
        m'.isCollapsed = m.isCollapsed := by
  induction ops with
  | nil => intro f r m hr; exact ⟨m, hr, rfl, rfl, rfl⟩
  | cons op ops ih =>
    intro f r m hr
    obtain ⟨m₁, hm₁, h1, h2, h3⟩ := stepCreate_preserves f op r m hr
    obtain ⟨m₂, hm₂, g1, g2, g3⟩ := ih (stepCreate f op).1 r m₁ hm₁
    exact ⟨m₂, by rw [runCreate]; exact hm₂,
      g1.trans h1, g2.trans h2, g3.trans h3⟩

/-- Immediately after a create call, the collected path resolves to
exactly the created note. -/
theorem stepCreate_created (f : List Note) (op : CreateOp) :
    ∀ pe ∈ (stepCreate f op).2,
      getNoteByPath (stepCreate f op).1 pe.1 = some pe.2 := by
  intro pe hpe
  cases op with
  | newNote =>
    simp only [stepCreate, handleNewNote, List.mem_singleton] at hpe
    subst hpe
    simp only [stepCreate, handleNewNote]
    rw [getNoteByPath_singleton, List.getElem?_concat_length]
  | addSub p =>
    cases hadd : handleAddSubNote f p with
    | ok f₁ =>
      obtain ⟨parent, hres, _, hset⟩ := handleAddSubNote_ok_elim hadd
      have hne : p ≠ [] := by
        rintro rfl
        rw [getNoteByPath] at hres
        exact Option.noConfusion hres
      simp only [stepCreate, hadd, List.mem_singleton] at hpe
      subst hpe
      obtain ⟨f'', hset'', hget''⟩ :=
        setNoteByPathAux_inRange
          (Note.mk parent.title parent.content
            (some (parent.subNotes.getD [] ++ [defaultSubNote])) parent.isCollapsed)
          hne (pathInRange_of_get hres)
      rw [hset] at hset''
      injection hset'' with hf
      subst hf
      have hcount : childCount f p = (parent.subNotes.getD []).length := by
        rw [childCount, hres]
        rfl
      simp only [stepCreate, hadd, hcount]
      rw [getNoteByPath_snoc hne _ f₁, hget'']
      simp [Note.subNotes, List.getElem?_concat_length]
    | notFound => simp [stepCreate, hadd] at hpe
    | depthExceeded => simp [stepCreate, hadd] at hpe
    | crash => simp [stepCreate, hadd] at hpe
    | sparse => simp [stepCreate, hadd] at hpe

/-! ## C6: round trip of create calls -/

/-- Counterexample to C6 as stated: after `createRoot` followed by
`createChild [0]`, the path `[0]` returned by the first call resolves in
the resulting forest to a note whose children are no longer empty, so its
fields are not exactly those given at creation. -/
theorem runCreate_round_trip_counterexample :
    ([0], defaultRootNote) ∈ (runCreate [] [CreateOp.newNote, CreateOp.addSub [0]]).2 ∧
    getNoteByPath (runCreate [] [CreateOp.newNote, CreateOp.addSub [0]]).1 [0] =
      some (Note.mk "Untitled Note" "" (some [defaultSubNote]) (some false)) ∧
    Note.mk "Untitled Note" "" (some [defaultSubNote]) (some false) ≠
      defaultRootNote := by decide

/-- C6 (amended): every path returned by a create call resolves in the
forest immediately after that call to exactly the created note (default
title, empty content, empty children, collapsed false), and in the forest
resulting from the whole sequence to a note with the same `title`,
`content` and `isCollapsed` — its children may have grown through later
`createChild` calls. -/
theorem runCreate_round_trip (f : List Note) (ops : List CreateOp) :
    (∀ op, ∀ pe ∈ (stepCreate f op).2,
      getNoteByPath (stepCreate f op).1 pe.1 = some pe.2) ∧
    (∀ pe ∈ (runCreate f ops).2,
      ∃ n, getNoteByPath (runCreate f ops).1 pe.1 = some n ∧
        n.title = pe.2.title ∧ n.content = pe.2.content ∧
        n.isCollapsed = pe.2.isCollapsed) := by
  refine ⟨fun op => stepCreate_created f op, ?_⟩
  induction ops generalizing f with
  | nil => intro pe hpe; simp [runCreate] at hpe
  | cons op ops ih =>
    intro pe hpe
    rw [runCreate] at hpe
    simp only [List.mem_append] at hpe
    rcases hpe with hpe | hpe
    · have himm := stepCreate_created f op pe hpe
      obtain ⟨n, hn, h1, h2, h3⟩ :=
        runCreate_preserves ops (stepCreate f op).1 pe.1 pe.2 himm
      exact ⟨n, by rw [runCreate]; exact hn, h1, h2, h3⟩
    · exact ih (stepCreate f op).1 pe hpe

/-- Witness for C6 (amended) on `createRoot; createChild [0]` from the
empty forest. -/
theorem runCreate_round_trip_witness :
    (∀ op, ∀ pe ∈ (stepCreate [] op).2,
      getNoteByPath (stepCreate [] op).1 pe.1 = some pe.2) ∧
    (∀ pe ∈ (runCreate [] [CreateOp.newNote, CreateOp.addSub [0]]).2,
      ∃ n, getNoteByPath (runCreate [] [CreateOp.newNote, CreateOp.addSub [0]]).1 pe.1 =
          some n ∧
        n.title = pe.2.title ∧ n.content = pe.2.content ∧
        n.isCollapsed = pe.2.isCollapsed) :=
  runCreate_round_trip [] [CreateOp.newNote, CreateOp.addSub [0]]

/-- Replacing one note of a level by a note with the same title, content
and search-projection of the children's gather leaves the projection of
the level's gather unchanged. -/
theorem gatherLevel_set_proj {level : List Note} :
    ∀ {j : Nat} {u v : Note}, level[j]? = some v →
      u.title = v.title → u.content = v.content →
      (∀ (q : List Nat) (idx : Nat),
        (gatherLevel q idx (u.subNotes.getD [])).map searchProj =
        (gatherLevel q idx (v.subNotes.getD [])).map searchProj) →
      ∀ (q : List Nat) (idx : Nat),
        (gatherLevel q idx (level.set j u)).map searchProj =
        (gatherLevel q idx level).map searchProj := by
  induction level with
  | nil => intro j u v hj; simp at hj
  | cons n rest ihl =>
    intro j u v hj ht hc hch q idx
    cases j with
    | zero =>
      have hn : n = v := by simpa using hj
      subst hn
      rw [List.set_cons_zero, gatherLevel, gatherLevel,
        List.map_append, List.map_append]
      congr 1
      rw [gatherNote_eq, gatherNote_eq]
      simp only [List.map_cons]
      congr 1
      · simp [searchProj, ht, hc]
      · exact hch (q ++ [idx]) 0
    | succ j' =>
      have hj' : rest[j']? = some v := by simpa using hj
      rw [List.set_cons_succ, gatherLevel, gatherLevel,
        List.map_append, List.map_append]
      congr 1
      exact ihl hj' ht hc hch q (idx + 1)

/-- Writing back a note with unchanged title, content and children leaves
the search projection of the whole gather unchanged. -/
theorem gather_proj_set {p : List Nat} :
    ∀ {level f' : List Note} {target u : Note},
      getNoteByPath level p = some target →
      setNoteByPathAux level u p = .ok f' →
      u.title = target.title → u.content = target.content →
      u.subNotes = target.subNotes →
      ∀ (q : List Nat) (idx : Nat),
        (gatherLevel q idx f').map searchProj =
        (gatherLevel q idx level).map searchProj := by
  induction p with
  | nil =>
    intro level f' target u hq
    simp [getNoteByPath] at hq
  | cons i rest ihp =>
    intro level f' target u hq hset ht hc hs q idx
    cases rest with
    | nil =>
      rw [getNoteByPath_singleton] at hq
      have hlt : i < level.length := (List.getElem?_eq_some.1 hq).1
      rw [setNoteByPathAux_singleton, if_pos hlt] at hset
      injection hset with hf
      subst hf
      exact gatherLevel_set_proj hq ht hc (by rw [hs]; intro q' idx'; rfl) q idx
    | cons r0 rrt =>
      rw [getNoteByPath_cons_cons] at hq
      cases hi : level[i]? with
      | none => simp only [hi] at hq; exact Option.noConfusion hq
      | some cur =>
        simp only [hi] at hq
        cases hcsub : cur.subNotes with
        | none => simp only [hcsub] at hq; exact Option.noConfusion hq
        | some cs =>
          simp only [hcsub] at hq
          rw [setNoteByPathAux_cons_cons] at hset
          simp only [hi, hcsub, Option.getD_some] at hset
          cases hsetc : setNoteByPathAux cs u (r0 :: rrt) with
          | crash => simp only [hsetc] at hset; exact SetResult.noConfusion hset
          | sparse => simp only [hsetc] at hset; exact SetResult.noConfusion hset
          | ok c =>
            simp only [hsetc] at hset
            injection hset with hf
            subst hf
            refine gatherLevel_set_proj
              (u := Note.mk cur.title cur.content (some c) cur.isCollapsed)
              hi rfl rfl ?_ q idx
            intro q' idx'
            rw [show (Note.mk cur.title cur.content (some c) cur.isCollapsed).subNotes =
                some c from rfl, hcsub]
            simp only [Option.getD_some]
            exact ihp hq hsetc ht hc hs q' idx'

/-- Filtering by the search predicate commutes with the search
projection: the predicate only reads title and content. -/
theorem map_proj_filter (l : List (List Nat × Note)) (lowerQ : String) :
    (l.filter fun e => searchMatches lowerQ e.2).map searchProj =
      (l.map searchProj).filter fun t =>
        jsIncludes (jsToLower t.2.1) lowerQ || jsIncludes (jsToLower t.2.2) lowerQ := by
  induction l with
  | nil => rfl
  | cons e l ih =>
    simp only [List.map_cons, List.filter_cons]
    have hcond : (jsIncludes (jsToLower (searchProj e).2.1) lowerQ ||
        jsIncludes (jsToLower (searchProj e).2.2) lowerQ) = searchMatches lowerQ e.2 := rfl
    rw [hcond]
    rcases hval : searchMatches lowerQ e.2 <;> simp [hval, ih]

/-! ## C8: toggleCollapsed frame property -/

/-- Counterexample to C8 as stated: search results embed the notes
themselves, so after toggling a matching note the returned entry carries
the flipped flag — the result lists are not identical. -/
theorem toggle_search_counterexample :
    handleToggleCollapse [Note.mk "a" "" (some []) (some false)] [0] =
      [Note.mk "a" "" (some []) (some true)] ∧
    computeSearchResults [Note.mk "a" "" (some []) (some true)] "a" =
      [([0], Note.mk "a" "" (some []) (some true))] ∧
    computeSearchResults [Note.mk "a" "" (some []) (some false)] "a" =
      [([0], Note.mk "a" "" (some []) (some false))] ∧
    ([([0], Note.mk "a" "" (some []) (some true))] :
      List (List Nat × Note)) ≠ [([0], Note.mk "a" "" (some []) (some false))] := by
  refine ⟨by decide, ?_, ?_, by decide⟩
  · have hg : gatherAllNotes [Note.mk "a" "" (some []) (some true)] =
        [([0], Note.mk "a" "" (some []) (some true))] := by
      simp [gatherAllNotes, gatherLevel, gatherNote]
    rw [computeSearchResults, if_neg (by decide), hg]
    decide
  · have hg : gatherAllNotes [Note.mk "a" "" (some []) (some false)] =
        [([0], Note.mk "a" "" (some []) (some false))] := by
      simp [gatherAllNotes, gatherLevel, gatherNote]
    rw [computeSearchResults, if_neg (by decide), hg]
    decide

/-- C8 (amended): for a resolvable path, `handleToggleCollapse` leaves a
forest in which the addressed note keeps its title, content and children
with only its collapsed flag flipped; every other resolvable path still
resolves to a note with the same title, content and collapsed flag; and
search returns entries with identical paths, titles and contents in the
same order — only the collapsed flag carried inside a returned note can
differ. -/
theorem toggleCollapse_frame (f : List Note) (p : List Nat) (note : Note)
    (hres : getNoteByPath f p = some note) :
    getNoteByPath (handleToggleCollapse f p) p =
      some (Note.mk note.title note.content note.subNotes
        (some (!(note.isCollapsed.getD false)))) ∧
    (∀ r m, getNoteByPath f r = some m →
      ∃ m', getNoteByPath (handleToggleCollapse f p) r = some m' ∧
        m'.title = m.title ∧ m'.content = m.content ∧
        (r ≠ p → m'.isCollapsed = m.isCollapsed)) ∧
    (∀ q, (computeSearchResults (handleToggleCollapse f p) q).map searchProj =
      (computeSearchResults f q).map searchProj) := by
  have hne : p ≠ [] := by
    rintro rfl
    rw [getNoteByPath] at hres
    exact Option.noConfusion hres
  obtain ⟨f', hset, hget⟩ :=
    setNoteByPathAux_inRange
      (Note.mk note.title note.content note.subNotes
        (some (!(note.isCollapsed.getD false))))
      hne (pathInRange_of_get hres)
  have hT : handleToggleCollapse f p = f' := by
    unfold handleToggleCollapse
    simp only [hres]
    rw [setNoteByPath, if_neg (by simp [hne])]
    simp only [hset]
  refine ⟨?_, ?_, ?_⟩
  · rw [hT]; exact hget
  · intro r m hr
    obtain ⟨m', hm', hmq, hmneq⟩ :=
      getNoteByPath_setAux_preserved hres hset List.prefix_rfl r m hr
    rw [hT]
    by_cases hrp : r = p
    · subst hrp
      rw [hres] at hr
      injection hr with hm
      subst hm
      refine ⟨m', hm', ?_, ?_, fun hne' => absurd rfl hne'⟩
      · rw [hmq rfl]; rfl
      · rw [hmq rfl]; rfl
    · obtain ⟨h1, h2, h3, -⟩ := hmneq hrp
      exact ⟨m', hm', h1, h2, fun _ => h3⟩
  · intro q
    rw [hT]
    by_cases hq : (jsTrim q).isEmpty = true
    · rw [computeSearchResults, computeSearchResults, if_pos hq, if_pos hq]
    · have hproj : (gatherAllNotes f').map searchProj =
          (gatherAllNotes f).map searchProj :=
        gather_proj_set hres hset rfl rfl rfl [] 0
      rw [computeSearchResults, computeSearchResults, if_neg hq, if_neg hq,
        map_proj_filter, map_proj_filter, hproj]

/-- Witness for C8 (amended): toggling the only note of a one-note
forest flips its flag. -/
theorem toggleCollapse_frame_witness :
    getNoteByPath
        (handleToggleCollapse [Note.mk "a" "" (some []) (some false)] [0]) [0] =
      some (Note.mk "a" "" (some []) (some true)) := by
  have h := toggleCollapse_frame [Note.mk "a" "" (some []) (some false)] [0]
    (Note.mk "a" "" (some []) (some false)) (by decide)
  exact h.1
